import Mathlib

/-!
# The kgsl debugfs memory-entry views (drivers/gpu/msm/kgsl_debugfs.c)

A shallow embedding of the seq_file callbacks of the per-process listing
(process_mem_seq_*), the sparse listing (process_sparse_mem_print) and the
per-entry page dump (mem_entry_seq_*, print_mem_entry_page), followed by the
properties of these callbacks.

Conventions of the embedding:

* a C pointer to a kgsl_mem_entry is the record it points to, read at the time
  of the call; the idr of a process is the list of its entries in ascending id
  order, read under mem_lock at the time of the call;
* every call of kgsl_mem_entry_get that succeeds and every call of
  kgsl_mem_entry_put / kgsl_mem_entry_put_deferred is written to a log of
  ref_event values, in program order;
* ids are idr keys (0 .. INT_MAX) and seq_file positions are non-negative, both
  are natural numbers; unsigned int and size_t arithmetic is reduced modulo
  2^32 and 2^64 where the C code computes in those types;
* the text of a row is not rendered: a row is the tuple of values handed to
  seq_printf / hex_dump_to_buffer.
-/

namespace Kgsl

/-! ## Data model -/

/-- One node of entry->bind_tree (struct sparse_bind_object). -/
structure sparse_bind_object where
  v_off : Nat
  size : Nat
  p_off : Nat
deriving DecidableEq, Repr

/-- The fields of struct kgsl_memdesc that kgsl_debugfs.c reads. An element of
pages is none for a NULL page pointer (an unallocated page) and some handle
otherwise. -/
structure kgsl_memdesc where
  gpuaddr : Nat
  size : Nat
  flags : Nat
  pages : List (Option Nat)
  page_count : Nat
deriving DecidableEq, Repr

/-- The fields of struct kgsl_mem_entry that kgsl_debugfs.c reads. bind_tree is
the red-black tree of bindings read in order (rb_first, rb_next). -/
structure kgsl_mem_entry where
  refcount : Nat
  memdesc : kgsl_memdesc
  id : Nat
  pending_free : Bool
  map_count : Nat
  metadata : Option String
  bind_tree : List sparse_bind_object
deriving DecidableEq, Repr

/-- A reference acquired or released on an entry. -/
inductive ref_event where
  | get (e : kgsl_mem_entry)
  | put (e : kgsl_mem_entry)
deriving DecidableEq, Repr

/-- The values a process_mem_seq_* callback receives as its cursor: the header
token or a pointer to an entry. The seq_file core never hands NULL to next. -/
inductive seq_ptr where
  | SEQ_START_TOKEN
  | entry (e : kgsl_mem_entry)
deriving DecidableEq, Repr

/-- The values mem_entry_seq_start / mem_entry_seq_next return: NULL, an error
pointer, the header token, or the pointer to the position variable (shown by
the value it points to). -/
inductive mem_entry_ptr where
  | NULL
  | ERR_PTR (err : Int)
  | SEQ_START_TOKEN
  | pos (p : Nat)
deriving DecidableEq, Repr

/-- The flag bits of include/uapi/linux/msm_kgsl.h that kgsl_debugfs.c tests;
the header is not part of the sources, the bits are parameters. -/
structure msm_kgsl_flags where
  KGSL_MEMFLAGS_GPUREADONLY : Nat
  KGSL_MEMFLAGS_SPARSE_PHYS : Nat
  KGSL_MEMFLAGS_SPARSE_VIRT : Nat
deriving DecidableEq, Repr

/-- One seq_printf / seq_putc call, with the values it prints. A mem_row holds
the columns print_mem_entry computes from the entry itself (gpuaddr, size, id,
flags[2], flags[6], flags[8] and the map count, then the metadata); the columns
filled in by helpers of other files are not part of the row. -/
inductive seq_line where
  | mem_header
  | mem_row (gpuaddr size id : Nat) (writable mapped sparse_phys : Bool)
      (map_count : Nat) (metadata : Option String)
  | sparse_header
  | sparse_row (id gpuaddr v_off size p_off : Nat)
  | newline
  | page_row (offset : Nat) (buf_off : Nat) (linelen : Nat)
deriving DecidableEq, Repr

/-- The value of -EACCES (asm-generic/errno-base.h). -/
def EACCES : Int := 13

/-! ## Helpers of other files -/

/-- Modelled from the spec: kgsl_mem_entry_get (kgsl.h, not among the sources)
is the "reference count increment guarded against the entry already being
finalized": it fails on a zero count and otherwise takes one reference. -/
def kgsl_mem_entry_get (e : kgsl_mem_entry) : Option kgsl_mem_entry :=
  if e.refcount = 0 then none else some { e with refcount := e.refcount + 1 }

/-- Modelled from the spec: idr_get_next (lib/idr.c, not among the sources) is
the lookup of the entry with the smallest id at or after the given one; the
idr is listed in ascending id order, so this is the first such entry. The id
written back through the pointer argument is the id of the entry returned. -/
def idr_get_next (idr : List kgsl_mem_entry) (id : Nat) : Option kgsl_mem_entry :=
  idr.find? (fun e => decide (id ≤ e.id))

/-- Number of idr slots at or after an id: the loop variant of the walks. -/
def idr_remaining (idr : List kgsl_mem_entry) (id : Nat) : Nat :=
  (idr.filter (fun e => decide (id ≤ e.id))).length

/-! ## The per-process listing -/

/-- The for loop of process_mem_seq_find, entered with the loop variables id
and temp_pos: the entry found and the reference taken on it, or NULL. -/
def process_mem_seq_find_loop (idr : List kgsl_mem_entry) (pos : Nat) (id temp_pos : Nat) :
    Option kgsl_mem_entry × List ref_event :=
  match h : idr_get_next idr id with
  | none => (none, [])
  | some entry =>
    if temp_pos = pos then
      match kgsl_mem_entry_get entry with
      | some e => (some e, [ref_event.get e])
      | none => process_mem_seq_find_loop idr pos (entry.id + 1) (temp_pos + 1)
    else process_mem_seq_find_loop idr pos (entry.id + 1) (temp_pos + 1)
termination_by idr_remaining idr id
decreasing_by
  all_goals
    have key : ∀ (l : List kgsl_mem_entry) (a : Nat) (x : kgsl_mem_entry),
        idr_get_next l a = some x → idr_remaining l (x.id + 1) < idr_remaining l a := by
      intro l
      induction l with
      | nil => intro a x hx; simp [idr_get_next] at hx
      | cons y t ih =>
        intro a x hx
        have mono : ∀ (s : List kgsl_mem_entry) (u v : Nat), u ≤ v →
            idr_remaining s v ≤ idr_remaining s u := by
          intro s
          induction s with
          | nil => intro u v _; simp [idr_remaining]
          | cons z s ihs =>
            intro u v huv
            have := ihs u v huv
            unfold idr_remaining at this ⊢
            by_cases hv : v ≤ z.id
            · have hu : u ≤ z.id := le_trans huv hv
              simp [List.filter_cons, hu, hv]; exact this
            · by_cases hu : u ≤ z.id
              · simp [List.filter_cons, hu, hv]; omega
              · simp [List.filter_cons, hu, hv]; exact this
        unfold idr_get_next at hx
        rw [List.find?_cons] at hx
        by_cases hy : a ≤ y.id
        · simp [hy] at hx
          subst hx
          have := mono t a (y.id + 1) (by omega)
          unfold idr_remaining at this ⊢
          simp [List.filter_cons, hy]
          omega
        · simp [hy] at hx
          have hle : a ≤ x.id := by
            have := List.find?_some hx
            simpa using this
          have := ih a x hx
          unfold idr_remaining at this ⊢
          have h2 : ¬ (x.id + 1 ≤ y.id) := by omega
          simp [List.filter_cons, hy, h2]
          exact this
    exact key idr id entry h

/-- The function process_mem_seq_find: walk the idr from id 0 (header token) or
from the id after the cursor entry, then drop the reference of the cursor. -/
def process_mem_seq_find (idr : List kgsl_mem_entry) (ptr : seq_ptr) (pos : Nat) :
    Option kgsl_mem_entry × List ref_event :=
  let id := match ptr with
    | seq_ptr.SEQ_START_TOKEN => 0
    | seq_ptr.entry e => e.id + 1
  let found := process_mem_seq_find_loop idr pos id 1
  match ptr with
  | seq_ptr.SEQ_START_TOKEN => found
  | seq_ptr.entry p => (found.1, found.2 ++ [ref_event.put p])

/-- The callback process_mem_seq_start. -/
def process_mem_seq_start (idr : List kgsl_mem_entry) (pos : Nat) :
    Option seq_ptr × List ref_event :=
  if pos = 0 then (some seq_ptr.SEQ_START_TOKEN, [])
  else
    let r := process_mem_seq_find idr seq_ptr.SEQ_START_TOKEN pos
    (r.1.map seq_ptr.entry, r.2)

/-- The callback process_mem_seq_stop; its argument may be NULL. -/
def process_mem_seq_stop (ptr : Option seq_ptr) : List ref_event :=
  match ptr with
  | some (seq_ptr.entry e) => [ref_event.put e]
  | _ => []

/-- The callback process_mem_seq_next: the new cursor, the incremented position
and the references taken and dropped. -/
def process_mem_seq_next (idr : List kgsl_mem_entry) (ptr : seq_ptr) (pos : Nat) :
    Option seq_ptr × Nat × List ref_event :=
  let r := process_mem_seq_find idr ptr 1
  (r.1.map seq_ptr.entry, pos + 1, r.2)

/-- The function print_mem_entry. -/
def print_mem_entry (K : msm_kgsl_flags) (entry : kgsl_mem_entry) : List seq_line :=
  let m := entry.memdesc
  if m.flags &&& K.KGSL_MEMFLAGS_SPARSE_VIRT ≠ 0 then []
  else
    [seq_line.mem_row m.gpuaddr m.size entry.id
      (decide (m.flags &&& K.KGSL_MEMFLAGS_GPUREADONLY = 0))
      (decide (entry.map_count ≠ 0))
      (decide (m.flags &&& K.KGSL_MEMFLAGS_SPARSE_PHYS ≠ 0))
      entry.map_count entry.metadata]

/-- The callback process_mem_seq_show. -/
def process_mem_seq_show (K : msm_kgsl_flags) (ptr : seq_ptr) : List seq_line :=
  match ptr with
  | seq_ptr.SEQ_START_TOKEN => [seq_line.mem_header]
  | seq_ptr.entry e => print_mem_entry K e

/-- The function print_sparse_mem_entry, the callback of idr_for_each. -/
def print_sparse_mem_entry (K : msm_kgsl_flags) (entry : kgsl_mem_entry) : List seq_line :=
  if entry.memdesc.flags &&& K.KGSL_MEMFLAGS_SPARSE_VIRT = 0 then []
  else
    entry.bind_tree.map (fun obj =>
      seq_line.sparse_row entry.id entry.memdesc.gpuaddr obj.v_off obj.size obj.p_off)
    ++ [seq_line.newline]

/-- The function process_sparse_mem_print: the header, then idr_for_each. -/
def process_sparse_mem_print (K : msm_kgsl_flags) (idr : List kgsl_mem_entry) : List seq_line :=
  seq_line.sparse_header :: (idr.map (print_sparse_mem_entry K)).flatten

/-! ## How the seq_file core drives the per-process callbacks -/

/-- The cursor values and the reference log of k calls of process_mem_seq_next,
the i-th call reading the i-th registry of the list. As in seq_read, next is
not called again once it has returned NULL. The result is the last value
returned, the entries yielded on the way and the log. -/
def process_mem_seq_nexts (ptr : Option seq_ptr) (pos : Nat) :
    List (List kgsl_mem_entry) → Option seq_ptr × List seq_ptr × List ref_event
  | [] => (ptr, [], [])
  | idr :: rest =>
    match ptr with
    | none => (none, [], [])
    | some p =>
      let r := process_mem_seq_next idr p pos
      let s := process_mem_seq_nexts r.1 r.2.1 rest
      (s.1, r.1.toList ++ s.2.1, r.2.2 ++ s.2.2)

/-- One seq_file session of the per-process listing: start at pos on idr0, one
next per registry of the list, then stop on the last value returned. The
result is the list of cursor values yielded and the reference log. -/
def process_mem_session (idr0 : List kgsl_mem_entry) (pos : Nat)
    (idrs : List (List kgsl_mem_entry)) : List seq_ptr × List ref_event :=
  let a := process_mem_seq_start idr0 pos
  let s := process_mem_seq_nexts a.1 pos idrs
  (a.1.toList ++ s.2.1, a.2 ++ s.2.2 ++ process_mem_seq_stop s.1)

/-- The entries among a list of cursor values. -/
def yielded_entries : List seq_ptr → List kgsl_mem_entry
  | [] => []
  | seq_ptr.SEQ_START_TOKEN :: l => yielded_entries l
  | seq_ptr.entry e :: l => e :: yielded_entries l

/-- The entries on which the log takes a reference, in order. -/
def acquired : List ref_event → List kgsl_mem_entry
  | [] => []
  | ref_event.get e :: l => e :: acquired l
  | ref_event.put _ :: l => acquired l

/-- The entries on which the log drops a reference, in order. -/
def released : List ref_event → List kgsl_mem_entry
  | [] => []
  | ref_event.get _ :: l => released l
  | ref_event.put e :: l => e :: released l

/-- The rows shown in one session of the per-process listing: process_mem_seq_show
on every cursor value yielded, in order. -/
def process_mem_listing (K : msm_kgsl_flags) (idr0 : List kgsl_mem_entry) (pos : Nat)
    (idrs : List (List kgsl_mem_entry)) : List seq_line :=
  ((process_mem_session idr0 pos idrs).1.map (process_mem_seq_show K)).flatten

/-! ## The per-entry view -/

/-- The callback mem_entry_seq_start. The arguments task and may_access are the
outcomes of get_pid_task (a task was found) and of ptrace_may_access. The
result is the value returned, the entry after the call and the reference
log. -/
def mem_entry_seq_start (entry : kgsl_mem_entry) (task may_access : Bool) (pos : Nat) :
    mem_entry_ptr × kgsl_mem_entry × List ref_event :=
  if !task then (mem_entry_ptr.NULL, entry, [])
  else if !may_access then (mem_entry_ptr.ERR_PTR (-EACCES), entry, [])
  else if entry.pending_free then (mem_entry_ptr.NULL, entry, [])
  else
    match kgsl_mem_entry_get entry with
    | none => (mem_entry_ptr.NULL, entry, [])
    | some e =>
      if pos = 0 then (mem_entry_ptr.SEQ_START_TOKEN, e, [ref_event.get e])
      else if pos ≤ e.memdesc.page_count then (mem_entry_ptr.pos pos, e, [ref_event.get e])
      else (mem_entry_ptr.NULL, e, [ref_event.get e])

/-- The callback mem_entry_seq_next: the value returned and the incremented
position. -/
def mem_entry_seq_next (entry : kgsl_mem_entry) (pos : Nat) : mem_entry_ptr × Nat :=
  if pos + 1 ≤ entry.memdesc.page_count then (mem_entry_ptr.pos (pos + 1), pos + 1)
  else (mem_entry_ptr.NULL, pos + 1)

/-- The callback mem_entry_seq_stop: kgsl_mem_entry_put_deferred on the entry. -/
def mem_entry_seq_stop (entry : kgsl_mem_entry) : List ref_event :=
  [ref_event.put entry]

/-- The for loop of print_mem_entry_page, entered with the loop variables i and
remaining; bias is the gpuaddr term of the offset. -/
def print_mem_entry_page_rows (PAGE_SIZE page_offset bias : Nat) (i remaining : Nat) :
    List seq_line :=
  if i < PAGE_SIZE then
    seq_line.page_row ((page_offset + i + bias) % 2 ^ 64) i (min remaining 32) ::
      print_mem_entry_page_rows PAGE_SIZE page_offset bias (i + 32)
        ((remaining + (2 ^ 64 - 32)) % 2 ^ 64)
  else []
termination_by PAGE_SIZE - i
decreasing_by omega

/-- The page index print_mem_entry_page computes from the position it is handed:
*pos - 1 stored in an unsigned int. -/
def page_index (pos : Nat) : Nat := (pos + (2 ^ 32 - 1)) % 2 ^ 32

/-- The function print_mem_entry_page for the position pos, with PAGE_SIZE equal
to 2 ^ PAGE_SHIFT; kzalloc_ok and vm_map_ram_ok are the outcomes of kzalloc and
vm_map_ram. The result is none when pages[page] is read past the page_count
elements of the array, and otherwise the return value and the rows printed. -/
def print_mem_entry_page (PAGE_SHIFT : Nat) (kptr_restrict : Int) (entry : kgsl_mem_entry)
    (kzalloc_ok vm_map_ram_ok : Bool) (pos : Nat) : Option (Int × List seq_line) :=
  let page := page_index pos
  let page_offset := (page * 2 ^ PAGE_SHIFT) % 2 ^ 32
  match entry.memdesc.pages[page]? with
  | none => none
  | some none => some (0, [])
  | some (some _) =>
    if !kzalloc_ok then some (0, [])
    else if !vm_map_ram_ok then some (0, [])
    else
      some (0, print_mem_entry_page_rows (2 ^ PAGE_SHIFT) page_offset
        (if kptr_restrict < 2 then entry.memdesc.gpuaddr else 0) 0 (2 ^ PAGE_SHIFT))

/-- The callback mem_entry_seq_show; it is not called on NULL or on an error
pointer. -/
def mem_entry_seq_show (K : msm_kgsl_flags) (PAGE_SHIFT : Nat) (kptr_restrict : Int)
    (entry : kgsl_mem_entry) (kzalloc_ok vm_map_ram_ok : Bool) (ptr : mem_entry_ptr) :
    Option (Int × List seq_line) :=
  match ptr with
  | mem_entry_ptr.SEQ_START_TOKEN => some (0, print_mem_entry K entry)
  | mem_entry_ptr.pos p => print_mem_entry_page PAGE_SHIFT kptr_restrict entry kzalloc_ok vm_map_ram_ok p
  | _ => some (0, [])

/-- The values returned by k calls of mem_entry_seq_next after ptr; as in
seq_read, next is not called after NULL or an error pointer. -/
def mem_entry_seq_nexts (entry : kgsl_mem_entry) (ptr : mem_entry_ptr) (pos : Nat) :
    Nat → List mem_entry_ptr
  | 0 => []
  | k + 1 =>
    match ptr with
    | mem_entry_ptr.NULL => []
    | mem_entry_ptr.ERR_PTR _ => []
    | _ =>
      let r := mem_entry_seq_next entry pos
      r.1 :: mem_entry_seq_nexts entry r.1 r.2 k

/-- One seq_file session of the per-entry view: start, k calls of next, stop
(seq_read calls stop whatever start returned). The result is the value start
returned, the values next returned and the reference log. -/
def mem_entry_session (entry : kgsl_mem_entry) (task may_access : Bool) (pos k : Nat) :
    mem_entry_ptr × List mem_entry_ptr × List ref_event :=
  let a := mem_entry_seq_start entry task may_access pos
  (a.1, mem_entry_seq_nexts a.2.1 a.1 pos k, a.2.2 ++ mem_entry_seq_stop a.2.1)

/-- The id a walk of process_mem_seq_find starts from. -/
def start_id : seq_ptr → Nat
  | seq_ptr.SEQ_START_TOKEN => 0
  | seq_ptr.entry e => e.id + 1

/-- The cursor value that holds a reference on the j-th entry of the idr in id
order (the header token for j = 0), if that entry exists and a reference can
be taken on it. -/
def cursor_at (idr : List kgsl_mem_entry) (j : Nat) : Option seq_ptr :=
  if j = 0 then some seq_ptr.SEQ_START_TOKEN
  else (idr[j - 1]?.bind kgsl_mem_entry_get).map seq_ptr.entry

/-- An entry for the examples: id, reference count, flags and pending_free are
given, the other fields are empty. -/
def example_entry (id refcount flags : Nat) (pending_free : Bool) : kgsl_mem_entry :=
  { refcount := refcount
    memdesc := { gpuaddr := 0, size := 4096, flags := flags, pages := [], page_count := 0 }
    id := id
    pending_free := pending_free
    map_count := 0
    metadata := none
    bind_tree := [] }

/-- An entry of three pages whose middle page is not allocated. -/
def example_holed_entry : kgsl_mem_entry :=
  { refcount := 1
    memdesc := { gpuaddr := 0x1000000, size := 12288, flags := 0,
                 pages := [some 10, none, some 12], page_count := 3 }
    id := 7
    pending_free := false
    map_count := 0
    metadata := none
    bind_tree := [] }

/-- An entry of 2 ^ 20 + 1 allocated pages (4 GiB and one page of 4 KiB). -/
def example_large_entry : kgsl_mem_entry :=
  { refcount := 1
    memdesc := { gpuaddr := 0, size := (2 ^ 20 + 1) * 4096, flags := 0,
                 pages := List.replicate (2 ^ 20 + 1) (some 0), page_count := 2 ^ 20 + 1 }
    id := 8
    pending_free := false
    map_count := 0
    metadata := none
    bind_tree := [] }

/-- The row print_mem_entry prints for an entry that is not sparse-virtual. -/
def mem_row_of (K : msm_kgsl_flags) (e : kgsl_mem_entry) : seq_line :=
  seq_line.mem_row e.memdesc.gpuaddr e.memdesc.size e.id
    (decide (e.memdesc.flags &&& K.KGSL_MEMFLAGS_GPUREADONLY = 0))
    (decide (e.map_count ≠ 0))
    (decide (e.memdesc.flags &&& K.KGSL_MEMFLAGS_SPARSE_PHYS ≠ 0))
    e.map_count e.metadata

/-- The block print_sparse_mem_entry prints for a sparse-virtual entry: one row
for each binding, then an empty line. -/
def sparse_block_of (e : kgsl_mem_entry) : List seq_line :=
  e.bind_tree.map (fun obj =>
    seq_line.sparse_row e.id e.memdesc.gpuaddr obj.v_off obj.size obj.p_off)
  ++ [seq_line.newline]

/-- An assignment of the flag bits for the examples. -/
def example_flags : msm_kgsl_flags :=
  { KGSL_MEMFLAGS_GPUREADONLY := 0x01000000
    KGSL_MEMFLAGS_SPARSE_PHYS := 0x20000000
    KGSL_MEMFLAGS_SPARSE_VIRT := 0x40000000 }

/-- A registry of a plain entry of id 1 and a sparse-virtual entry of id 3 with
two bindings. -/
def example_registry : List kgsl_mem_entry :=
  [ { refcount := 1
      memdesc := { gpuaddr := 0x10000, size := 4096, flags := 0, pages := [], page_count := 0 }
      id := 1, pending_free := false, map_count := 0, metadata := none, bind_tree := [] },
    { refcount := 1
      memdesc := { gpuaddr := 0x20000, size := 8192, flags := 0x40000000, pages := [],
                   page_count := 0 }
      id := 3, pending_free := false, map_count := 0, metadata := none,
      bind_tree := [⟨0, 4096, 0⟩, ⟨4096, 4096, 8192⟩] } ]

/-- The idr in which the entry number i (counted from 0) carries one more
reference. -/
def bump_at : List kgsl_mem_entry → Nat → List kgsl_mem_entry
  | [], _ => []
  | x :: l, 0 => { x with refcount := x.refcount + 1 } :: l
  | x :: l, i + 1 => x :: bump_at l i

/-- The registry as the call of next number j + 1 of a walk reads it when nothing
but the walk touches it: the entry number j in id order, which the cursor
points to, carries the reference of the cursor (for j = 0 the cursor is the
header token and holds none). -/
def held (idr : List kgsl_mem_entry) (j : Nat) : List kgsl_mem_entry :=
  if j = 0 then idr else bump_at idr (j - 1)

/-! ## Properties of the walk of process_mem_seq_find -/

theorem find_loop_unfold (idr : List kgsl_mem_entry) (pos id t : Nat) :
    process_mem_seq_find_loop idr pos id t =
      match idr_get_next idr id with
      | none => (none, [])
      | some entry =>
        if t = pos then
          match kgsl_mem_entry_get entry with
          | some e => (some e, [ref_event.get e])
          | none => process_mem_seq_find_loop idr pos (entry.id + 1) (t + 1)
        else process_mem_seq_find_loop idr pos (entry.id + 1) (t + 1) := by
  rw [process_mem_seq_find_loop]
  split <;> simp_all

theorem idr_get_next_some {idr : List kgsl_mem_entry} {id : Nat} {x : kgsl_mem_entry}
    (h : idr_get_next idr id = some x) : x ∈ idr ∧ id ≤ x.id := by
  unfold idr_get_next at h
  refine ⟨List.mem_of_find?_eq_some h, ?_⟩
  have := List.find?_some h
  simpa using this

theorem kgsl_mem_entry_get_some {x e : kgsl_mem_entry} (h : kgsl_mem_entry_get x = some e) :
    x.refcount ≠ 0 ∧ e = { x with refcount := x.refcount + 1 } := by
  unfold kgsl_mem_entry_get at h
  by_cases h0 : x.refcount = 0
  · simp [h0] at h
  · simp [h0] at h
    exact ⟨h0, h.symm⟩

theorem kgsl_mem_entry_get_id {x e : kgsl_mem_entry} (h : kgsl_mem_entry_get x = some e) :
    e.id = x.id := by
  rw [(kgsl_mem_entry_get_some h).2]

/-- What the loop returns: nothing and an empty log, or an entry of the idr at
or after the start id on which the one logged reference was taken at position
pos of the walk. -/
theorem find_loop_sound (idr : List kgsl_mem_entry) (pos id t : Nat) :
    process_mem_seq_find_loop idr pos id t = (none, []) ∨
    ∃ x e, x ∈ idr ∧ id ≤ x.id ∧ kgsl_mem_entry_get x = some e ∧
      process_mem_seq_find_loop idr pos id t = (some e, [ref_event.get e]) := by
  induction id, t using process_mem_seq_find_loop.induct idr pos with
  | case1 id t hnone =>
    left
    rw [find_loop_unfold, hnone]
  | case2 id entry hsome e hget =>
    right
    refine ⟨entry, e, (idr_get_next_some hsome).1, (idr_get_next_some hsome).2, hget, ?_⟩
    rw [find_loop_unfold, hsome]
    simp [hget]
  | case3 id entry hsome hget ih =>
    have hstep : process_mem_seq_find_loop idr pos id pos =
        process_mem_seq_find_loop idr pos (entry.id + 1) (pos + 1) := by
      rw [find_loop_unfold idr pos id, hsome]
      simp [hget]
    rw [hstep]
    rcases ih with ih | ⟨x, e, hx, hle, hg, hr⟩
    · exact Or.inl ih
    · have := (idr_get_next_some hsome).2
      exact Or.inr ⟨x, e, hx, by omega, hg, hr⟩
  | case4 id t entry hsome hne ih =>
    have hstep : process_mem_seq_find_loop idr pos id t =
        process_mem_seq_find_loop idr pos (entry.id + 1) (t + 1) := by
      rw [find_loop_unfold idr pos id, hsome]
      simp [hne]
    rw [hstep]
    rcases ih with ih | ⟨x, e, hx, hle, hg, hr⟩
    · exact Or.inl ih
    · have := (idr_get_next_some hsome).2
      exact Or.inr ⟨x, e, hx, by omega, hg, hr⟩

/-- What process_mem_seq_find returns and logs. -/
theorem process_mem_seq_find_sound (idr : List kgsl_mem_entry) (ptr : seq_ptr) (pos : Nat) :
    process_mem_seq_find idr ptr pos = (none, process_mem_seq_stop (some ptr)) ∨
    ∃ x e, x ∈ idr ∧ start_id ptr ≤ x.id ∧ kgsl_mem_entry_get x = some e ∧
      process_mem_seq_find idr ptr pos =
        (some e, ref_event.get e :: process_mem_seq_stop (some ptr)) := by
  cases ptr with
  | SEQ_START_TOKEN =>
    rcases find_loop_sound idr pos 0 1 with h | ⟨x, e, hx, hle, hg, hr⟩
    · left
      simp [process_mem_seq_find, h, process_mem_seq_stop]
    · right
      exact ⟨x, e, hx, hle, hg, by simp [process_mem_seq_find, hr, process_mem_seq_stop]⟩
  | entry p =>
    rcases find_loop_sound idr pos (p.id + 1) 1 with h | ⟨x, e, hx, hle, hg, hr⟩
    · left
      simp [process_mem_seq_find, h, process_mem_seq_stop]
    · right
      exact ⟨x, e, hx, hle, hg, by simp [process_mem_seq_find, hr, process_mem_seq_stop]⟩

theorem yielded_entries_append (a b : List seq_ptr) :
    yielded_entries (a ++ b) = yielded_entries a ++ yielded_entries b := by
  induction a with
  | nil => rfl
  | cons x l ih => cases x <;> simp [yielded_entries, ih]

theorem acquired_append (a b : List ref_event) :
    acquired (a ++ b) = acquired a ++ acquired b := by
  induction a with
  | nil => rfl
  | cons x l ih => cases x <;> simp [acquired, ih]

theorem released_append (a b : List ref_event) :
    released (a ++ b) = released a ++ released b := by
  induction a with
  | nil => rfl
  | cons x l ih => cases x <;> simp [released, ih]

theorem acquired_stop (ptr : Option seq_ptr) : acquired (process_mem_seq_stop ptr) = [] := by
  rcases ptr with _ | _ | e <;> rfl

theorem released_stop (ptr : Option seq_ptr) :
    released (process_mem_seq_stop ptr) = yielded_entries ptr.toList := by
  rcases ptr with _ | _ | e <;> rfl

/-- One call of process_mem_seq_find takes a reference on exactly the entry it
returns and drops exactly the reference of its cursor. -/
theorem process_mem_seq_find_refs (idr : List kgsl_mem_entry) (ptr : seq_ptr) (pos : Nat) :
    acquired (process_mem_seq_find idr ptr pos).2 = (process_mem_seq_find idr ptr pos).1.toList ∧
    released (process_mem_seq_find idr ptr pos).2 = yielded_entries [ptr] := by
  rcases process_mem_seq_find_sound idr ptr pos with h | ⟨x, e, _, _, _, h⟩
  · rw [h]
    exact ⟨acquired_stop _, released_stop _⟩
  · rw [h]
    refine ⟨?_, ?_⟩
    · simp [acquired, acquired_stop]
    · simp [released, released_stop]

theorem yielded_entries_map_toList (r : Option kgsl_mem_entry) :
    yielded_entries (r.map seq_ptr.entry).toList = r.toList := by
  cases r <;> rfl

/-- References over a run of next calls: the references taken are those on the
entries yielded, and the references dropped, with the one still held on the
last value, are those on the cursor the run began with and the entries
yielded. -/
theorem process_mem_seq_nexts_refs (idrs : List (List kgsl_mem_entry)) :
    ∀ (ptr : Option seq_ptr) (pos : Nat),
      acquired (process_mem_seq_nexts ptr pos idrs).2.2 =
        yielded_entries (process_mem_seq_nexts ptr pos idrs).2.1 ∧
      released (process_mem_seq_nexts ptr pos idrs).2.2 ++
          yielded_entries (process_mem_seq_nexts ptr pos idrs).1.toList =
        yielded_entries ptr.toList ++
          yielded_entries (process_mem_seq_nexts ptr pos idrs).2.1 := by
  induction idrs with
  | nil => intro ptr pos; simp [process_mem_seq_nexts, acquired, released, yielded_entries]
  | cons idr rest ih =>
    intro ptr pos
    cases ptr with
    | none => simp [process_mem_seq_nexts, acquired, released, yielded_entries]
    | some p =>
      have hf := process_mem_seq_find_refs idr p 1
      have hi := ih (process_mem_seq_next idr p pos).1 (process_mem_seq_next idr p pos).2.1
      simp only [process_mem_seq_nexts, acquired_append, released_append, yielded_entries_append]
      simp only [process_mem_seq_next, yielded_entries_map_toList] at hi ⊢
      refine ⟨?_, ?_⟩
      · rw [hf.1, hi.1]
      · rw [List.append_assoc, hi.2, hf.2]
        simp

theorem process_mem_seq_nexts_none (pos : Nat) (idrs : List (List kgsl_mem_entry)) :
    process_mem_seq_nexts none pos idrs = (none, [], []) := by
  cases idrs <;> rfl

/-- The entries yielded by a run of next calls have strictly increasing ids, all
of them at or after the id the first walk starts from, whatever the registry
is at each call. -/
theorem process_mem_seq_nexts_increasing (idrs : List (List kgsl_mem_entry)) :
    ∀ (p : seq_ptr) (pos : Nat),
      (yielded_entries (process_mem_seq_nexts (some p) pos idrs).2.1).Pairwise
        (fun a b => a.id < b.id) ∧
      ∀ e ∈ yielded_entries (process_mem_seq_nexts (some p) pos idrs).2.1, start_id p ≤ e.id := by
  induction idrs with
  | nil => intro p pos; simp [process_mem_seq_nexts, yielded_entries]
  | cons idr rest ih =>
    intro p pos
    rcases process_mem_seq_find_sound idr p 1 with h | ⟨x, e, _, hle, hg, h⟩
    · simp [process_mem_seq_nexts, process_mem_seq_next, h, process_mem_seq_nexts_none,
        yielded_entries]
    · have hi := ih (seq_ptr.entry e) (pos + 1)
      have hid := kgsl_mem_entry_get_id hg
      simp only [process_mem_seq_nexts, process_mem_seq_next, h, Option.map_some',
        Option.toList, List.singleton_append, yielded_entries]
      simp only [start_id] at hi
      refine ⟨List.pairwise_cons.mpr ⟨fun b hb => ?_, hi.1⟩, fun b hb => ?_⟩
      · have := hi.2 b hb
        omega
      · rcases List.mem_cons.mp hb with rfl | hb
        · omega
        · have := hi.2 b hb
          omega

/-- The entries yielded in one session have strictly increasing ids. -/
theorem process_mem_session_increasing (idr0 : List kgsl_mem_entry) (pos : Nat)
    (idrs : List (List kgsl_mem_entry)) :
    (yielded_entries (process_mem_session idr0 pos idrs).1).Pairwise
      (fun a b => a.id < b.id) := by
  unfold process_mem_session process_mem_seq_start
  by_cases h0 : pos = 0
  · simp only [h0, if_true, Option.toList, List.singleton_append, yielded_entries]
    exact (process_mem_seq_nexts_increasing idrs seq_ptr.SEQ_START_TOKEN 0).1
  · simp only [h0, if_false]
    rcases process_mem_seq_find_sound idr0 seq_ptr.SEQ_START_TOKEN pos with h | ⟨x, e, _, _, _, h⟩
    · simp [h, process_mem_seq_nexts_none, yielded_entries]
    · have hi := process_mem_seq_nexts_increasing idrs (seq_ptr.entry e) pos
      simp only [h, Option.map_some', Option.toList, List.singleton_append, yielded_entries]
      refine List.pairwise_cons.mpr ⟨fun b hb => ?_, hi.1⟩
      have := hi.2 b hb
      simp only [start_id] at this
      omega

/-- The references of one session: those taken and those dropped are both the
entries yielded, in the order they were yielded. -/
theorem process_mem_session_refs (idr0 : List kgsl_mem_entry) (pos : Nat)
    (idrs : List (List kgsl_mem_entry)) :
    acquired (process_mem_session idr0 pos idrs).2 =
      yielded_entries (process_mem_session idr0 pos idrs).1 ∧
    released (process_mem_session idr0 pos idrs).2 =
      yielded_entries (process_mem_session idr0 pos idrs).1 := by
  have hn := process_mem_seq_nexts_refs idrs (process_mem_seq_start idr0 pos).1 pos
  have hs : acquired (process_mem_seq_start idr0 pos).2 =
        yielded_entries (process_mem_seq_start idr0 pos).1.toList ∧
      released (process_mem_seq_start idr0 pos).2 = [] := by
    unfold process_mem_seq_start
    by_cases h0 : pos = 0
    · simp [h0, acquired, released, yielded_entries]
    · have hf := process_mem_seq_find_refs idr0 seq_ptr.SEQ_START_TOKEN pos
      simp only [h0, if_false, yielded_entries_map_toList]
      exact ⟨hf.1, by simpa [yielded_entries] using hf.2⟩
  simp only [process_mem_session, acquired_append, released_append, yielded_entries_append,
    acquired_stop, released_stop, List.append_nil]
  refine ⟨by rw [hs.1, hn.1], ?_⟩
  rw [hs.2, List.nil_append, hn.2]

/-- C1. Per-process cursor reference balance: in every session of the
per-process listing (start at any position, any number of next calls on any
registries, stop on the last value returned, which may be the header token or
NULL) the references taken with kgsl_mem_entry_get are exactly the references
dropped with kgsl_mem_entry_put, as many of the one as of the other, and each
is on an entry yielded; every yielded entry is taken once and dropped once. -/
theorem process_mem_session_balanced (idr0 : List kgsl_mem_entry) (pos : Nat)
    (idrs : List (List kgsl_mem_entry)) :
    (acquired (process_mem_session idr0 pos idrs).2).length =
      (released (process_mem_session idr0 pos idrs).2).length ∧
    acquired (process_mem_session idr0 pos idrs).2 =
      yielded_entries (process_mem_session idr0 pos idrs).1 ∧
    released (process_mem_session idr0 pos idrs).2 =
      yielded_entries (process_mem_session idr0 pos idrs).1 ∧
    ∀ e ∈ yielded_entries (process_mem_session idr0 pos idrs).1,
      (acquired (process_mem_session idr0 pos idrs).2).count e = 1 ∧
      (released (process_mem_session idr0 pos idrs).2).count e = 1 := by
  have hr := process_mem_session_refs idr0 pos idrs
  have hinc := process_mem_session_increasing idr0 pos idrs
  have hnd : (yielded_entries (process_mem_session idr0 pos idrs).1).Nodup := by
    refine List.Pairwise.imp ?_ hinc
    intro a b hab heq
    rw [heq] at hab
    exact Nat.lt_irrefl _ hab
  refine ⟨by rw [hr.1, hr.2], hr.1, hr.2, fun e he => ?_⟩
  rw [hr.1, hr.2]
  exact ⟨List.count_eq_one_of_mem hnd he, List.count_eq_one_of_mem hnd he⟩

/-- C4. Strictly increasing ids: whatever the registry is at each call, an
entry yielded by process_mem_seq_next after a yielded entry p has an id greater
than that of p, and the ids yielded across a walk (start at the header token,
then repeated next, on registries that change between the calls) are strictly
increasing. -/
theorem process_mem_seq_next_increasing :
    (∀ (idr : List kgsl_mem_entry) (p e : kgsl_mem_entry) (pos : Nat),
      (process_mem_seq_next idr (seq_ptr.entry p) pos).1 = some (seq_ptr.entry e) →
        p.id < e.id) ∧
    (∀ (idr0 : List kgsl_mem_entry) (idrs : List (List kgsl_mem_entry)),
      (yielded_entries (process_mem_session idr0 0 idrs).1).Pairwise
        (fun a b => a.id < b.id)) := by
  refine ⟨fun idr p e pos h => ?_, fun idr0 idrs => process_mem_session_increasing idr0 0 idrs⟩
  rcases process_mem_seq_find_sound idr (seq_ptr.entry p) 1 with h1 | ⟨x, e1, _, hle, hg, h1⟩
  · simp [process_mem_seq_next, h1] at h
  · simp only [process_mem_seq_next, h1, Option.map_some', Option.some.injEq,
      seq_ptr.entry.injEq] at h
    subst h
    have := kgsl_mem_entry_get_id hg
    simp only [start_id] at hle
    omega

/-! ## The walk on a registry that does not change -/

theorem idr_get_next_cons_lt (a : kgsl_mem_entry) (l : List kgsl_mem_entry) (id : Nat)
    (h : a.id < id) : idr_get_next (a :: l) id = idr_get_next l id := by
  have : ¬ id ≤ a.id := by omega
  simp [idr_get_next, List.find?_cons, this]

theorem idr_get_next_cons_le (a : kgsl_mem_entry) (l : List kgsl_mem_entry) (id : Nat)
    (h : id ≤ a.id) : idr_get_next (a :: l) id = some a := by
  simp [idr_get_next, List.find?_cons, h]

/-- Once temp_pos has passed pos the loop yields nothing. -/
theorem find_loop_past (idr : List kgsl_mem_entry) (pos id t : Nat) :
    pos < t → process_mem_seq_find_loop idr pos id t = (none, []) := by
  induction id, t using process_mem_seq_find_loop.induct idr pos with
  | case1 id t hnone =>
    intro _
    rw [find_loop_unfold, hnone]
  | case2 id entry hsome e hget => intro h; omega
  | case3 id entry hsome hget ih => intro h; omega
  | case4 id t entry hsome hne ih =>
    intro h
    rw [find_loop_unfold, hsome]
    simp only [hne, if_false]
    exact ih (by omega)

/-- An entry below the start id plays no part in the walk. -/
theorem find_loop_skip_head (a : kgsl_mem_entry) (l : List kgsl_mem_entry) (pos id t : Nat) :
    a.id < id →
      process_mem_seq_find_loop (a :: l) pos id t = process_mem_seq_find_loop l pos id t := by
  induction id, t using process_mem_seq_find_loop.induct (a :: l) pos with
  | case1 id t hnone =>
    intro h
    rw [find_loop_unfold, find_loop_unfold l, ← idr_get_next_cons_lt a l id h, hnone]
  | case2 id entry hsome e hget =>
    intro h
    rw [find_loop_unfold, find_loop_unfold l, ← idr_get_next_cons_lt a l id h, hsome]
    simp [hget]
  | case3 id entry hsome hget ih =>
    intro h
    have hle := (idr_get_next_some hsome).2
    rw [find_loop_unfold, find_loop_unfold l, ← idr_get_next_cons_lt a l id h, hsome]
    simp only [if_true, hget]
    exact ih (by omega)
  | case4 id t entry hsome hne ih =>
    intro h
    have hle := (idr_get_next_some hsome).2
    rw [find_loop_unfold, find_loop_unfold l, ← idr_get_next_cons_lt a l id h, hsome]
    simp only [hne, if_false]
    exact ih (by omega)

/-- The walk for position 1: the first entry at or after the start id when a
reference can be taken on it, and nothing otherwise. -/
theorem find_loop_one (idr : List kgsl_mem_entry) (id : Nat) :
    (process_mem_seq_find_loop idr 1 id 1).1 = (idr_get_next idr id).bind kgsl_mem_entry_get := by
  rw [find_loop_unfold]
  cases hn : idr_get_next idr id with
  | none => rfl
  | some x =>
    cases hg : kgsl_mem_entry_get x with
    | none => simp [hg, find_loop_past]
    | some e => simp [hg]

theorem process_mem_seq_find_fst (idr : List kgsl_mem_entry) (ptr : seq_ptr) (pos : Nat) :
    (process_mem_seq_find idr ptr pos).1 =
      (process_mem_seq_find_loop idr pos (start_id ptr) 1).1 := by
  cases ptr <;> rfl

theorem process_mem_seq_next_fst (idr : List kgsl_mem_entry) (ptr : seq_ptr) (pos : Nat) :
    (process_mem_seq_next idr ptr pos).1 =
      ((idr_get_next idr (start_id ptr)).bind kgsl_mem_entry_get).map seq_ptr.entry := by
  simp only [process_mem_seq_next, process_mem_seq_find_fst, find_loop_one]

/-- On an idr in ascending id order whose entries can all be referenced, the
walk that starts at or below the first id with temp_pos ≤ pos stops on the
entry number pos - temp_pos. -/
theorem find_loop_sorted (pos : Nat) (l : List kgsl_mem_entry) :
    l.Pairwise (fun a b => a.id < b.id) → (∀ e ∈ l, e.refcount ≠ 0) →
    ∀ (id t : Nat), t ≤ pos → (∀ e ∈ l, id ≤ e.id) →
      (process_mem_seq_find_loop l pos id t).1 = l[pos - t]?.bind kgsl_mem_entry_get := by
  induction l with
  | nil =>
    intro _ _ id t _ _
    rw [find_loop_unfold]
    simp [idr_get_next]
  | cons a l ih =>
    intro hs hr id t ht hid
    have ha : id ≤ a.id := hid a (List.mem_cons_self _ _)
    have hs2 := List.pairwise_cons.mp hs
    rw [find_loop_unfold, idr_get_next_cons_le a l id ha]
    by_cases htp : t = pos
    · subst htp
      have hga : kgsl_mem_entry_get a = some { a with refcount := a.refcount + 1 } := by
        simp [kgsl_mem_entry_get, hr a (List.mem_cons_self _ _)]
      simp [hga]
    · simp only [htp, if_false]
      rw [find_loop_skip_head a l pos (a.id + 1) (t + 1) (by omega)]
      rw [ih hs2.2 (fun e he => hr e (List.mem_cons_of_mem _ he)) (a.id + 1) (t + 1) (by omega)
        (fun e he => hs2.1 e he)]
      have : pos - t = (pos - (t + 1)) + 1 := by omega
      rw [this, List.getElem?_cons_succ]

theorem idr_get_next_sorted (l : List kgsl_mem_entry) :
    l.Pairwise (fun a b => a.id < b.id) → ∀ (j : Nat) (x : kgsl_mem_entry),
      l[j]? = some x → idr_get_next l (x.id + 1) = l[j + 1]? := by
  induction l with
  | nil => intro _ j x h; simp at h
  | cons a l ih =>
    intro hs j x hx
    have hs2 := List.pairwise_cons.mp hs
    cases j with
    | zero =>
      simp only [List.getElem?_cons_zero, Option.some.injEq] at hx
      subst hx
      rw [idr_get_next_cons_lt a l (a.id + 1) (by omega), List.getElem?_cons_succ]
      cases l with
      | nil => rfl
      | cons b l =>
        have := hs2.1 b (List.mem_cons_self _ _)
        rw [idr_get_next_cons_le b l (a.id + 1) (by omega)]
        simp
    | succ j =>
      rw [List.getElem?_cons_succ] at hx
      have hmem : x ∈ l := List.getElem?_mem hx
      have := hs2.1 x hmem
      rw [idr_get_next_cons_lt a l (x.id + 1) (by omega), List.getElem?_cons_succ]
      exact ih hs2.2 j x hx

theorem idr_get_next_zero (l : List kgsl_mem_entry) : idr_get_next l 0 = l[0]? := by
  cases l with
  | nil => rfl
  | cons a l => rw [idr_get_next_cons_le a l 0 (Nat.zero_le _)]; simp

theorem kgsl_mem_entry_get_of_ne {x : kgsl_mem_entry} (h : x.refcount ≠ 0) :
    kgsl_mem_entry_get x = some { x with refcount := x.refcount + 1 } := by
  simp [kgsl_mem_entry_get, h]

theorem process_mem_seq_start_at (idr : List kgsl_mem_entry) (N : Nat)
    (hs : idr.Pairwise (fun a b => a.id < b.id)) (hr : ∀ e ∈ idr, e.refcount ≠ 0) :
    (process_mem_seq_start idr N).1 = cursor_at idr N := by
  unfold process_mem_seq_start cursor_at
  by_cases h0 : N = 0
  · simp [h0]
  · simp only [h0, if_false, process_mem_seq_find_fst, start_id]
    rw [find_loop_sorted N idr hs hr 0 1 (by omega) (fun e _ => Nat.zero_le _)]

theorem cursor_at_none (idr : List kgsl_mem_entry) (hr : ∀ e ∈ idr, e.refcount ≠ 0) (j : Nat) :
    cursor_at idr j = none ↔ idr.length < j := by
  unfold cursor_at
  by_cases h0 : j = 0
  · simp [h0]
  · simp only [h0, if_false, Option.map_eq_none']
    constructor
    · intro h
      by_contra hlt
      have hj : j - 1 < idr.length := by omega
      have hx : idr[j - 1]? = some idr[j - 1] := List.getElem?_eq_getElem hj
      rw [hx, Option.some_bind, kgsl_mem_entry_get_of_ne (hr _ (List.getElem_mem hj))] at h
      exact Option.noConfusion h
    · intro h
      have : idr[j - 1]? = none := List.getElem?_eq_none (by omega)
      rw [this]
      rfl

theorem process_mem_seq_next_at (idr : List kgsl_mem_entry) (j pos : Nat) (p : seq_ptr)
    (hs : idr.Pairwise (fun a b => a.id < b.id)) (hp : cursor_at idr j = some p) :
    (process_mem_seq_next idr p pos).1 = cursor_at idr (j + 1) := by
  rw [process_mem_seq_next_fst]
  unfold cursor_at at hp ⊢
  simp only [Nat.add_eq_zero, one_ne_zero, and_false, if_false, Nat.add_sub_cancel]
  by_cases h0 : j = 0
  · simp only [h0, if_true, Option.some.injEq] at hp
    subst hp
    rw [h0]
    simp only [start_id, idr_get_next_zero]
  · simp only [h0, if_false] at hp
    cases hx : idr[j - 1]? with
    | none => simp [hx] at hp
    | some x =>
      rw [hx, Option.some_bind] at hp
      cases hg : kgsl_mem_entry_get x with
      | none => simp [hg] at hp
      | some e =>
        simp only [hg, Option.map_some', Option.some.injEq] at hp
        subst hp
        have hid := kgsl_mem_entry_get_id hg
        simp only [start_id, hid]
        rw [idr_get_next_sorted idr hs (j - 1) x hx]
        have : j - 1 + 1 = j := by omega
        rw [this]

theorem process_mem_seq_nexts_at (idr : List kgsl_mem_entry)
    (hs : idr.Pairwise (fun a b => a.id < b.id)) (hr : ∀ e ∈ idr, e.refcount ≠ 0) (k : Nat) :
    ∀ (j pos : Nat),
      (process_mem_seq_nexts (cursor_at idr j) pos (List.replicate k idr)).1 =
        cursor_at idr (j + k) := by
  induction k with
  | zero => intro j pos; rfl
  | succ k ih =>
    intro j pos
    rw [List.replicate_succ]
    cases hc : cursor_at idr j with
    | none =>
      have h1 := (cursor_at_none idr hr j).mp hc
      have h2 := (cursor_at_none idr hr (j + (k + 1))).mpr (by omega)
      rw [h2]
      rfl
    | some p =>
      have hn := process_mem_seq_next_at idr j pos p hs hc
      simp only [process_mem_seq_nexts]
      rw [hn]
      have := ih (j + 1) (process_mem_seq_next idr p pos).2.1
      rw [this]
      congr 1
      omega

/-! ## The reference of the cursor in the registry -/

theorem idr_get_next_bump_at (l : List kgsl_mem_entry) :
    ∀ (i id : Nat), (∀ x, l[i]? = some x → x.id < id) →
      idr_get_next (bump_at l i) id = idr_get_next l id := by
  induction l with
  | nil => intro i id _; rfl
  | cons a t ih =>
    intro i id h
    cases i with
    | zero =>
      have ha : a.id < id := h a (by simp)
      simp only [bump_at]
      rw [idr_get_next_cons_lt _ t id (by simpa using ha), idr_get_next_cons_lt a t id ha]
    | succ i =>
      simp only [bump_at]
      by_cases hle : id ≤ a.id
      · rw [idr_get_next_cons_le a _ id hle, idr_get_next_cons_le a t id hle]
      · rw [idr_get_next_cons_lt a _ id (by omega), idr_get_next_cons_lt a t id (by omega)]
        exact ih i id (fun x hx => h x (by simpa using hx))

/-- The walk for position 1 with its log. -/
theorem find_loop_one_full (idr : List kgsl_mem_entry) (id : Nat) :
    process_mem_seq_find_loop idr 1 id 1 =
      match (idr_get_next idr id).bind kgsl_mem_entry_get with
      | some e => (some e, [ref_event.get e])
      | none => (none, []) := by
  rw [find_loop_unfold]
  cases hn : idr_get_next idr id with
  | none => rfl
  | some x =>
    cases hg : kgsl_mem_entry_get x with
    | none => simp [hg, find_loop_past]
    | some e => simp [hg]

/-- The reference the cursor holds on its own entry does not change what next
returns and logs. -/
theorem process_mem_seq_next_held (idr : List kgsl_mem_entry) (j pos : Nat) (p : seq_ptr)
    (hp : cursor_at idr j = some p) :
    process_mem_seq_next (held idr j) p pos = process_mem_seq_next idr p pos := by
  unfold held
  by_cases h0 : j = 0
  · simp [h0]
  · simp only [h0, if_false]
    have hget : idr_get_next (bump_at idr (j - 1)) (start_id p) =
        idr_get_next idr (start_id p) := by
      apply idr_get_next_bump_at
      intro x hx
      unfold cursor_at at hp
      simp only [h0, if_false, hx, Option.some_bind] at hp
      cases hg : kgsl_mem_entry_get x with
      | none => simp [hg] at hp
      | some e =>
        simp only [hg, Option.map_some', Option.some.injEq] at hp
        subst hp
        have := kgsl_mem_entry_get_id hg
        simp only [start_id]
        omega
    cases p with
    | SEQ_START_TOKEN =>
      simp only [process_mem_seq_next, process_mem_seq_find, find_loop_one_full]
      simp only [start_id] at hget
      rw [hget]
    | entry e =>
      simp only [process_mem_seq_next, process_mem_seq_find, find_loop_one_full]
      simp only [start_id] at hget
      rw [hget]

/-- A walk on the registry that carries the reference of the cursor is the walk
on the registry itself. -/
theorem process_mem_seq_nexts_held (idr : List kgsl_mem_entry)
    (hs : idr.Pairwise (fun a b => a.id < b.id)) (k : Nat) :
    ∀ (j pos : Nat),
      process_mem_seq_nexts (cursor_at idr j) pos ((List.range' j k).map (held idr)) =
        process_mem_seq_nexts (cursor_at idr j) pos (List.replicate k idr) := by
  induction k with
  | zero => intro j pos; rfl
  | succ k ih =>
    intro j pos
    rw [List.replicate_succ, List.range'_succ, List.map_cons]
    cases hc : cursor_at idr j with
    | none => rfl
    | some p =>
      have hh := process_mem_seq_next_held idr j pos p hc
      have hn := process_mem_seq_next_at idr j pos p hs hc
      simp only [process_mem_seq_nexts]
      rw [hh, hn, ih (j + 1)]

/-- In an idr in ascending id order the entry number j has exactly j entries
with a smaller id. -/
theorem sorted_rank (l : List kgsl_mem_entry) :
    l.Pairwise (fun a b => a.id < b.id) → ∀ (j : Nat) (x : kgsl_mem_entry),
      l[j]? = some x → (l.filter (fun y => decide (y.id < x.id))).length = j := by
  induction l with
  | nil => intro _ j x h; simp at h
  | cons a l ih =>
    intro hs j x hx
    have hs2 := List.pairwise_cons.mp hs
    cases j with
    | zero =>
      simp only [List.getElem?_cons_zero, Option.some.injEq] at hx
      subst hx
      have : l.filter (fun y => decide (y.id < a.id)) = [] := by
        rw [List.filter_eq_nil_iff]
        intro y hy
        have := hs2.1 y hy
        simp only [decide_eq_true_eq]
        omega
      simp [List.filter_cons, this]
    | succ j =>
      rw [List.getElem?_cons_succ] at hx
      have := hs2.1 x (List.getElem?_mem hx)
      simp [List.filter_cons, this, ih hs2.2 j x hx]

/-- C5. Resume equals uninterrupted walk: on a registry that does not change,
in ascending id order and with every entry referenceable, process_mem_seq_start
at a position N ≥ 1 returns what N successive process_mem_seq_next calls from
the header token return; this is the entry number N in id order (N - 1 entries
have a smaller id) with the reference taken, and it is NULL exactly when N
exceeds the number of entries; position 0 returns the header token. The same
holds when each next call reads the registry with the reference of the cursor
on its entry (the registries held idr 0, held idr 1, ...). -/
theorem process_mem_seq_start_resume (idr : List kgsl_mem_entry) (N : Nat)
    (hs : idr.Pairwise (fun a b => a.id < b.id)) (hr : ∀ e ∈ idr, e.refcount ≠ 0)
    (hN : 1 ≤ N) :
    (process_mem_seq_start idr N).1 =
      (process_mem_seq_nexts (some seq_ptr.SEQ_START_TOKEN) 0 (List.replicate N idr)).1 ∧
    (process_mem_seq_start idr N).1 =
      (idr[N - 1]?.bind kgsl_mem_entry_get).map seq_ptr.entry ∧
    (∀ x, idr[N - 1]? = some x →
      (idr.filter (fun y => decide (y.id < x.id))).length = N - 1 ∧
      (process_mem_seq_start idr N).1 =
        some (seq_ptr.entry { x with refcount := x.refcount + 1 })) ∧
    ((process_mem_seq_start idr N).1 = none ↔ idr.length < N) ∧
    (process_mem_seq_start idr 0).1 = some seq_ptr.SEQ_START_TOKEN ∧
    (process_mem_seq_start idr N).1 =
      (process_mem_seq_nexts (some seq_ptr.SEQ_START_TOKEN) 0
        ((List.range N).map (held idr))).1 := by
  have hstart := process_mem_seq_start_at idr N hs hr
  have hnexts := process_mem_seq_nexts_at idr hs hr N 0 0
  have hheld := process_mem_seq_nexts_held idr hs N 0 0
  have hc0 : cursor_at idr 0 = some seq_ptr.SEQ_START_TOKEN := rfl
  have hcN : cursor_at idr N = (idr[N - 1]?.bind kgsl_mem_entry_get).map seq_ptr.entry := by
    have : N ≠ 0 := by omega
    simp [cursor_at, this]
  rw [hc0, Nat.zero_add] at hnexts
  rw [hc0, ← List.range_eq_range'] at hheld
  refine ⟨by rw [hstart, hnexts], by rw [hstart, hcN], fun x hx => ⟨sorted_rank idr hs _ x hx, ?_⟩,
    by rw [hstart]; exact cursor_at_none idr hr N, rfl, by rw [hheld, hstart, hnexts]⟩
  rw [hstart, hcN, hx, Option.some_bind,
    kgsl_mem_entry_get_of_ne (hr x (List.getElem?_mem hx))]
  rfl

theorem process_mem_seq_start_resume_witness :
    (process_mem_seq_start [example_entry 1 1 0 false, example_entry 3 1 0 false] 2).1 =
      (process_mem_seq_nexts (some seq_ptr.SEQ_START_TOKEN) 0
        (List.replicate 2 [example_entry 1 1 0 false, example_entry 3 1 0 false])).1 ∧
    (process_mem_seq_start [example_entry 1 1 0 false, example_entry 3 1 0 false] 2).1 =
      some (seq_ptr.entry (example_entry 3 2 0 false)) :=
  have h := process_mem_seq_start_resume
    [example_entry 1 1 0 false, example_entry 3 1 0 false] 2 (by decide) (by decide) (by decide)
  ⟨h.1, (h.2.2.1 (example_entry 3 1 0 false) rfl).2⟩

/-! ## The page dump -/

/-- The rows of the loop of print_mem_entry_page when the page size is a
multiple of the row size: one row of 32 bytes for each multiple of 32 below the
page size. -/
theorem print_mem_entry_page_rows_eq (n page_offset bias : Nat) (hn : 32 * n < 2 ^ 64) :
    ∀ (m a : Nat), a + m = n →
      print_mem_entry_page_rows (32 * n) page_offset bias (32 * a) (32 * m) =
        (List.range' a m).map (fun k =>
          seq_line.page_row ((page_offset + 32 * k + bias) % 2 ^ 64) (32 * k) 32) := by
  intro m
  induction m with
  | zero =>
    intro a ha
    rw [print_mem_entry_page_rows]
    have : ¬ (32 * a < 32 * n) := by omega
    simp [this]
  | succ m ih =>
    intro a ha
    rw [print_mem_entry_page_rows]
    have h1 : 32 * a < 32 * n := by omega
    have h2 : min (32 * (m + 1)) 32 = 32 := by omega
    have h3 : (32 * (m + 1) + (2 ^ 64 - 32)) % 2 ^ 64 = 32 * m := by omega
    have h4 : 32 * a + 32 = 32 * (a + 1) := by omega
    simp only [h1, if_true, h2, h3, h4]
    rw [ih (a + 1) (by omega)]
    simp [List.range'_succ]

theorem pow_shift_eq (PAGE_SHIFT : Nat) (h : 5 ≤ PAGE_SHIFT) :
    2 ^ PAGE_SHIFT = 32 * 2 ^ (PAGE_SHIFT - 5) := by
  have : PAGE_SHIFT = 5 + (PAGE_SHIFT - 5) := by omega
  conv_lhs => rw [this, pow_add]
  norm_num

/-- The rows print_mem_entry_page prints for a page that is allocated and
mapped. -/
theorem print_mem_entry_page_rows_page (PAGE_SHIFT page_offset bias : Nat)
    (h : 5 ≤ PAGE_SHIFT) (h2 : PAGE_SHIFT < 64) :
    print_mem_entry_page_rows (2 ^ PAGE_SHIFT) page_offset bias 0 (2 ^ PAGE_SHIFT) =
      (List.range (2 ^ PAGE_SHIFT / 32)).map (fun k =>
        seq_line.page_row ((page_offset + 32 * k + bias) % 2 ^ 64) (32 * k) 32) := by
  have hp := pow_shift_eq PAGE_SHIFT h
  have hlt : 2 ^ PAGE_SHIFT < 2 ^ 64 := Nat.pow_lt_pow_right (by norm_num) h2
  have hdiv : 2 ^ PAGE_SHIFT / 32 = 2 ^ (PAGE_SHIFT - 5) := by omega
  have := print_mem_entry_page_rows_eq (2 ^ (PAGE_SHIFT - 5)) page_offset bias (by omega)
    (2 ^ (PAGE_SHIFT - 5)) 0 (by omega)
  rw [hdiv, List.range_eq_range']
  rw [← this, ← hp]

theorem page_index_eq (pos : Nat) (h1 : 1 ≤ pos) (h2 : pos ≤ 2 ^ 32) : page_index pos = pos - 1 := by
  unfold page_index
  omega

theorem mem_entry_seq_start_cases (entry : kgsl_mem_entry) (task may_access : Bool) (pos : Nat) :
    (mem_entry_seq_start entry task may_access pos =
        (mem_entry_ptr.NULL, entry, []) ∧
      (task = false ∨ (may_access = true ∧ (entry.pending_free = true ∨ entry.refcount = 0)))) ∨
    (mem_entry_seq_start entry task may_access pos =
        (mem_entry_ptr.ERR_PTR (-EACCES), entry, []) ∧ task = true ∧ may_access = false) ∨
    (task = true ∧ may_access = true ∧ entry.pending_free = false ∧ entry.refcount ≠ 0 ∧
      mem_entry_seq_start entry task may_access pos =
        ((if pos = 0 then mem_entry_ptr.SEQ_START_TOKEN
          else if pos ≤ entry.memdesc.page_count then mem_entry_ptr.pos pos
          else mem_entry_ptr.NULL),
         { entry with refcount := entry.refcount + 1 },
         [ref_event.get { entry with refcount := entry.refcount + 1 }])) := by
  cases task with
  | false => left; simp [mem_entry_seq_start]
  | true =>
    cases may_access with
    | false => right; left; simp [mem_entry_seq_start]
    | true =>
      cases hp : entry.pending_free with
      | true => left; simp [mem_entry_seq_start, hp]
      | false =>
        by_cases hr : entry.refcount = 0
        · left; simp [mem_entry_seq_start, hp, kgsl_mem_entry_get, hr]
        · right; right
          refine ⟨rfl, rfl, rfl, hr, ?_⟩
          simp only [mem_entry_seq_start, hp, kgsl_mem_entry_get, hr]
          by_cases h0 : pos = 0
          · simp [h0]
          · by_cases hle : pos ≤ entry.memdesc.page_count
            · simp [h0, hle]
            · simp [h0, hle]

/-- C7. Page-dump range and holes: mem_entry_seq_start and mem_entry_seq_next
yield a page position p only with 1 ≤ p ≤ page_count and yield no position
past page_count; for such a position the page index is p - 1, below
page_count, and print_mem_entry_page reads inside the pages array; a page that
is not allocated prints nothing and returns 0, and an allocated page whose
buffer and mapping succeed prints PAGE_SIZE / 32 rows of 32 bytes each. -/
theorem mem_entry_page_range (PAGE_SHIFT : Nat) (kptr_restrict : Int) (entry : kgsl_mem_entry)
    (task may_access kzalloc_ok vm_map_ram_ok : Bool) (pos : Nat)
    (hshift : 5 ≤ PAGE_SHIFT ∧ PAGE_SHIFT < 32)
    (hpages : entry.memdesc.pages.length = entry.memdesc.page_count)
    (hcount : entry.memdesc.page_count < 2 ^ 32) :
    (∀ p, (mem_entry_seq_start entry task may_access pos).1 = mem_entry_ptr.pos p →
        p = pos ∧ 1 ≤ p ∧ p ≤ entry.memdesc.page_count) ∧
    (entry.memdesc.page_count < pos →
        (mem_entry_seq_start entry task may_access pos).1 = mem_entry_ptr.NULL ∨
        (mem_entry_seq_start entry task may_access pos).1 = mem_entry_ptr.ERR_PTR (-EACCES)) ∧
    (∀ p, (mem_entry_seq_next entry pos).1 = mem_entry_ptr.pos p →
        p = pos + 1 ∧ 1 ≤ p ∧ p ≤ entry.memdesc.page_count) ∧
    (entry.memdesc.page_count < pos + 1 →
        (mem_entry_seq_next entry pos).1 = mem_entry_ptr.NULL) ∧
    (1 ≤ pos → pos ≤ entry.memdesc.page_count →
        page_index pos = pos - 1 ∧ page_index pos < entry.memdesc.page_count ∧
        (print_mem_entry_page PAGE_SHIFT kptr_restrict entry kzalloc_ok vm_map_ram_ok
          pos).isSome = true ∧
        (entry.memdesc.pages[page_index pos]? = some none →
          print_mem_entry_page PAGE_SHIFT kptr_restrict entry kzalloc_ok vm_map_ram_ok pos =
            some (0, [])) ∧
        (∀ handle, entry.memdesc.pages[page_index pos]? = some (some handle) →
          kzalloc_ok = true → vm_map_ram_ok = true →
          ∃ rows, print_mem_entry_page PAGE_SHIFT kptr_restrict entry kzalloc_ok vm_map_ram_ok
              pos = some (0, rows) ∧
            rows.length = 2 ^ PAGE_SHIFT / 32 ∧
            ∀ r ∈ rows, ∃ offset buf_off, r = seq_line.page_row offset buf_off 32)) := by
  refine ⟨?_, ?_, ?_, ?_, ?_⟩
  · intro p hp
    rcases mem_entry_seq_start_cases entry task may_access pos with h | h | ⟨_, _, _, _, h⟩
    · rw [h.1] at hp; exact mem_entry_ptr.noConfusion hp
    · rw [h.1] at hp; exact mem_entry_ptr.noConfusion hp
    · rw [h] at hp
      by_cases h0 : pos = 0
      · simp [h0] at hp
      · by_cases hle : pos ≤ entry.memdesc.page_count
        · simp only [h0, hle, if_true, if_false, mem_entry_ptr.pos.injEq] at hp
          subst hp
          exact ⟨rfl, by omega, hle⟩
        · simp [h0, hle] at hp
  · intro hlt
    rcases mem_entry_seq_start_cases entry task may_access pos with h | h | ⟨_, _, _, _, h⟩
    · left; rw [h.1]
    · right; rw [h.1]
    · left
      rw [h]
      have h0 : pos ≠ 0 := by omega
      have hle : ¬ pos ≤ entry.memdesc.page_count := by omega
      simp [h0, hle]
  · intro p hp
    unfold mem_entry_seq_next at hp
    by_cases hle : pos + 1 ≤ entry.memdesc.page_count
    · simp only [hle, if_true, mem_entry_ptr.pos.injEq] at hp
      subst hp
      exact ⟨rfl, by omega, hle⟩
    · simp [hle] at hp
  · intro hlt
    unfold mem_entry_seq_next
    have hle : ¬ pos + 1 ≤ entry.memdesc.page_count := by omega
    simp [hle]
  · intro h1 h2
    have hidx := page_index_eq pos h1 (by omega)
    have hlt : page_index pos < entry.memdesc.pages.length := by omega
    have hget : entry.memdesc.pages[page_index pos]? =
        some (entry.memdesc.pages[page_index pos]) := List.getElem?_eq_getElem hlt
    refine ⟨hidx, by omega, ?_, ?_, ?_⟩
    · unfold print_mem_entry_page
      simp only [hget]
      cases entry.memdesc.pages[page_index pos] with
      | none => rfl
      | some handle =>
        cases kzalloc_ok <;> cases vm_map_ram_ok <;> rfl
    · intro hhole
      unfold print_mem_entry_page
      simp only [hhole]
    · intro handle hpage hk hv
      subst hk
      subst hv
      refine ⟨print_mem_entry_page_rows (2 ^ PAGE_SHIFT)
        ((page_index pos * 2 ^ PAGE_SHIFT) % 2 ^ 32)
        (if kptr_restrict < 2 then entry.memdesc.gpuaddr else 0) 0 (2 ^ PAGE_SHIFT), ?_, ?_, ?_⟩
      · unfold print_mem_entry_page
        simp only [hpage]
        rfl
      · rw [print_mem_entry_page_rows_page PAGE_SHIFT _ _ hshift.1 (by omega)]
        simp
      · intro r hr
        rw [print_mem_entry_page_rows_page PAGE_SHIFT _ _ hshift.1 (by omega)] at hr
        rcases List.mem_map.mp hr with ⟨k, _, hk⟩
        exact ⟨_, _, hk.symm⟩

theorem mem_entry_page_range_witness :
    mem_entry_session example_holed_entry true true 0 4 =
      (mem_entry_ptr.SEQ_START_TOKEN,
       [mem_entry_ptr.pos 1, mem_entry_ptr.pos 2, mem_entry_ptr.pos 3, mem_entry_ptr.NULL],
       [ref_event.get { example_holed_entry with refcount := 2 },
        ref_event.put { example_holed_entry with refcount := 2 }]) ∧
    (∃ rows, print_mem_entry_page 12 0 example_holed_entry true true 1 = some (0, rows) ∧
      rows.length = 2 ^ 12 / 32) ∧
    print_mem_entry_page 12 0 example_holed_entry true true 2 = some (0, []) ∧
    (∃ rows, print_mem_entry_page 12 0 example_holed_entry true true 3 = some (0, rows) ∧
      rows.length = 2 ^ 12 / 32) :=
  have h1 := (mem_entry_page_range 12 0 example_holed_entry true true true true 1
    (by decide) (by decide) (by decide)).2.2.2.2 (by decide) (by decide)
  have h2 := (mem_entry_page_range 12 0 example_holed_entry true true true true 2
    (by decide) (by decide) (by decide)).2.2.2.2 (by decide) (by decide)
  have h3 := (mem_entry_page_range 12 0 example_holed_entry true true true true 3
    (by decide) (by decide) (by decide)).2.2.2.2 (by decide) (by decide)
  ⟨by decide,
   (h1.2.2.2.2 10 (by decide) rfl rfl).imp (fun _ h => ⟨h.1, h.2.1⟩),
   h2.2.2.2.1 (by decide),
   (h3.2.2.2.2 12 (by decide) rfl rfl).imp (fun _ h => ⟨h.1, h.2.1⟩)⟩

/-! ## The offsets of the page dump -/

theorem print_mem_entry_page_present (PAGE_SHIFT : Nat) (kptr_restrict : Int)
    (entry : kgsl_mem_entry) (pos handle : Nat)
    (h : entry.memdesc.pages[page_index pos]? = some (some handle)) :
    print_mem_entry_page PAGE_SHIFT kptr_restrict entry true true pos =
      some (0, print_mem_entry_page_rows (2 ^ PAGE_SHIFT)
        ((page_index pos * 2 ^ PAGE_SHIFT) % 2 ^ 32)
        (if kptr_restrict < 2 then entry.memdesc.gpuaddr else 0) 0 (2 ^ PAGE_SHIFT)) := by
  unfold print_mem_entry_page
  simp only [h]
  rfl

theorem example_large_entry_page :
    example_large_entry.memdesc.pages[page_index (2 ^ 20 + 1)]? = some (some 0) := by
  have hidx : page_index (2 ^ 20 + 1) = 2 ^ 20 := by
    unfold page_index
    norm_num
  rw [hidx]
  simp only [example_large_entry]
  rw [List.getElem?_replicate]
  norm_num

/-- C9. Page-dump line offsets at a page index of 2 ^ 20 (page_count 2 ^ 20 + 1,
pages of 4 KiB, kptr_restrict 2): page << PAGE_SHIFT is computed in an unsigned
int and wraps to 0, so row k is printed with the offset 32 * k, where the byte
offset of the row within the allocation is 2 ^ 20 * 4096 + 32 * k. -/
theorem print_mem_entry_page_offset_wraps :
    page_index (2 ^ 20 + 1) = 2 ^ 20 ∧
    page_index (2 ^ 20 + 1) < example_large_entry.memdesc.page_count ∧
    print_mem_entry_page 12 2 example_large_entry true true (2 ^ 20 + 1) =
      some (0, (List.range (2 ^ 12 / 32)).map (fun k => seq_line.page_row (32 * k) (32 * k) 32)) ∧
    ∀ k, 32 * k ≠ 2 ^ 20 * 2 ^ 12 + 32 * k := by
  have hidx : page_index (2 ^ 20 + 1) = 2 ^ 20 := by
    unfold page_index
    norm_num
  refine ⟨hidx, ?_, ?_, fun k => by omega⟩
  · rw [hidx]
    simp only [example_large_entry]
    omega
  · rw [print_mem_entry_page_present 12 2 example_large_entry (2 ^ 20 + 1) 0
      example_large_entry_page, hidx]
    have hoff : (2 ^ 20 * 2 ^ 12) % 2 ^ 32 = 0 := by norm_num
    have hbias : (if (2 : Int) < 2 then example_large_entry.memdesc.gpuaddr else 0) = 0 := by
      simp
    rw [hoff, hbias, print_mem_entry_page_rows_page 12 0 0 (by norm_num) (by norm_num)]
    simp only [Option.some.injEq, Prod.mk.injEq, true_and]
    apply List.map_congr_left
    intro k hk
    have hk2 : k < 2 ^ 12 / 32 := List.mem_range.mp hk
    have : (0 + 32 * k + 0) % 2 ^ 64 = 32 * k := by omega
    rw [this]

/-- The rows of a page whose byte offset fits the unsigned int it is computed
in: row k carries the byte offset of the page within the allocation plus
32 * k, plus gpuaddr when kptr_restrict is below 2, as a size_t. -/
theorem print_mem_entry_page_in_range (PAGE_SHIFT : Nat) (kptr_restrict : Int)
    (entry : kgsl_mem_entry) (pos handle : Nat)
    (hshift : 5 ≤ PAGE_SHIFT ∧ PAGE_SHIFT < 32) (h1 : 1 ≤ pos) (h2 : pos ≤ 2 ^ 32)
    (hfit : (pos - 1) * 2 ^ PAGE_SHIFT < 2 ^ 32)
    (hpage : entry.memdesc.pages[page_index pos]? = some (some handle)) :
    print_mem_entry_page PAGE_SHIFT kptr_restrict entry true true pos =
      some (0, (List.range (2 ^ PAGE_SHIFT / 32)).map (fun k =>
        seq_line.page_row
          (((pos - 1) * 2 ^ PAGE_SHIFT + 32 * k +
            (if kptr_restrict < 2 then entry.memdesc.gpuaddr else 0)) % 2 ^ 64)
          (32 * k) 32)) := by
  rw [print_mem_entry_page_present PAGE_SHIFT kptr_restrict entry pos handle hpage,
    page_index_eq pos h1 h2, Nat.mod_eq_of_lt hfit,
    print_mem_entry_page_rows_page PAGE_SHIFT _ _ hshift.1 (by omega)]

/-! ## References of the per-entry view -/

theorem mem_entry_session_log (entry : kgsl_mem_entry) (task may_access : Bool) (pos k : Nat) :
    (mem_entry_session entry task may_access pos k).2.2 =
      (mem_entry_seq_start entry task may_access pos).2.2 ++
        mem_entry_seq_stop (mem_entry_seq_start entry task may_access pos).2.1 := rfl

/-- The references of a session of the per-entry view: stop always drops one;
start takes one exactly when the task is found, access is allowed, the entry
is not pending free and its reference count is not zero. -/
theorem mem_entry_session_refs (entry : kgsl_mem_entry) (task may_access : Bool) (pos k : Nat) :
    (released (mem_entry_session entry task may_access pos k).2.2).length = 1 ∧
    ((acquired (mem_entry_session entry task may_access pos k).2.2).length = 1 ↔
      (task = true ∧ may_access = true ∧ entry.pending_free = false ∧ entry.refcount ≠ 0)) := by
  rw [mem_entry_session_log]
  rcases mem_entry_seq_start_cases entry task may_access pos with h | h | ⟨h1, h2, h3, h4, h⟩
  · rw [h.1]
    refine ⟨rfl, ?_⟩
    simp only [List.nil_append, mem_entry_seq_stop, acquired, List.length_nil]
    constructor
    · intro hc; omega
    · rintro ⟨ht, hm, hp, hr⟩
      rcases h.2 with h' | ⟨_, h' | h'⟩
      · rw [ht] at h'; exact Bool.noConfusion h'
      · rw [hp] at h'; exact Bool.noConfusion h'
      · exact absurd h' hr
  · rw [h.1]
    refine ⟨rfl, ?_⟩
    simp only [List.nil_append, mem_entry_seq_stop, acquired, List.length_nil]
    constructor
    · intro hc; omega
    · rintro ⟨_, hm, _, _⟩
      rw [h.2.2] at hm; exact Bool.noConfusion hm
  · rw [h]
    exact ⟨rfl, ⟨fun _ => ⟨h1, h2, h3, h4⟩, fun _ => rfl⟩⟩

/-- C2. Per-entry view references when mem_entry_seq_start fails: with no task,
with access denied, with pending_free set or with a reference count of zero,
start takes no reference and returns NULL or an error pointer, and
mem_entry_seq_stop still drops one. -/
theorem mem_entry_session_unbalanced :
    (∀ k, acquired (mem_entry_session (example_entry 5 1 0 false) false true 0 k).2.2 = [] ∧
      released (mem_entry_session (example_entry 5 1 0 false) false true 0 k).2.2 =
        [example_entry 5 1 0 false]) ∧
    (∀ k, acquired (mem_entry_session (example_entry 5 1 0 false) true false 0 k).2.2 = [] ∧
      released (mem_entry_session (example_entry 5 1 0 false) true false 0 k).2.2 =
        [example_entry 5 1 0 false]) ∧
    (∀ k, acquired (mem_entry_session (example_entry 5 1 0 true) true true 0 k).2.2 = [] ∧
      released (mem_entry_session (example_entry 5 1 0 true) true true 0 k).2.2 =
        [example_entry 5 1 0 true]) ∧
    (∀ k, acquired (mem_entry_session (example_entry 5 0 0 false) true true 0 k).2.2 = [] ∧
      released (mem_entry_session (example_entry 5 0 0 false) true true 0 k).2.2 =
        [example_entry 5 0 0 false]) ∧
    (∀ k, acquired (mem_entry_session (example_entry 5 1 0 false) true true 0 k).2.2 =
        [example_entry 5 2 0 false] ∧
      released (mem_entry_session (example_entry 5 1 0 false) true true 0 k).2.2 =
        [example_entry 5 2 0 false]) := by
  refine ⟨fun k => ?_, fun k => ?_, fun k => ?_, fun k => ?_, fun k => ?_⟩ <;>
    rw [mem_entry_session_log] <;> exact ⟨by decide, by decide⟩

/-! ## A failed reference acquisition -/

/-- C3. A failed reference acquisition ends the walk: in the registry of an
entry of id 1 with a reference count of zero and an entry of id 2 that can be
referenced, process_mem_seq_start at position 1 and process_mem_seq_next from
the header token return NULL; the entry of id 2 is not returned. -/
theorem process_mem_seq_find_stops_at_unreferenced :
    kgsl_mem_entry_get (example_entry 1 0 0 false) = none ∧
    kgsl_mem_entry_get (example_entry 2 1 0 false) = some (example_entry 2 2 0 false) ∧
    (process_mem_seq_start [example_entry 1 0 0 false, example_entry 2 1 0 false] 1).1 = none ∧
    (process_mem_seq_next [example_entry 1 0 0 false, example_entry 2 1 0 false]
      seq_ptr.SEQ_START_TOKEN 0).1 = none := by
  refine ⟨by decide, by decide, ?_, ?_⟩
  · simp only [process_mem_seq_start, process_mem_seq_find_fst, find_loop_one]
    decide
  · rw [process_mem_seq_next_fst]
    decide

/-! ## The access-control gate -/

/-- C6 as stated fails: when the owning process has no task, mem_entry_seq_start
returns NULL, not the error pointer of -EACCES. -/
theorem mem_entry_seq_start_no_task_not_eacces :
    (mem_entry_seq_start (example_entry 5 1 0 false) false true 0).1 = mem_entry_ptr.NULL ∧
    (mem_entry_seq_start (example_entry 5 1 0 false) false true 0).1 ≠
      mem_entry_ptr.ERR_PTR (-EACCES) := by
  decide

/-- C6, amended. Access-control gate of the per-entry view: whenever the gate
denies (no task for the owning process, or no read permission on it),
mem_entry_seq_start yields neither the header token nor a page position and
takes no reference; it returns the error pointer of -EACCES when the task is
found and permission is refused, and NULL when there is no task. -/
theorem mem_entry_seq_start_gate (entry : kgsl_mem_entry) (task may_access : Bool) (pos : Nat)
    (hdeny : task = false ∨ may_access = false) :
    (mem_entry_seq_start entry task may_access pos).1 ≠ mem_entry_ptr.SEQ_START_TOKEN ∧
    (∀ p, (mem_entry_seq_start entry task may_access pos).1 ≠ mem_entry_ptr.pos p) ∧
    (mem_entry_seq_start entry task may_access pos).2.2 = [] ∧
    (task = true →
      (mem_entry_seq_start entry task may_access pos).1 = mem_entry_ptr.ERR_PTR (-EACCES)) ∧
    (task = false → (mem_entry_seq_start entry task may_access pos).1 = mem_entry_ptr.NULL) := by
  cases task with
  | false =>
    simp [mem_entry_seq_start]
  | true =>
    cases may_access with
    | false => simp [mem_entry_seq_start]
    | true => simp at hdeny

theorem mem_entry_seq_start_gate_witness :
    (mem_entry_seq_start (example_entry 5 1 0 false) true false 1).1 =
      mem_entry_ptr.ERR_PTR (-EACCES) ∧
    (mem_entry_seq_start (example_entry 5 1 0 false) true false 1).2.2 = [] :=
  have h := mem_entry_seq_start_gate (example_entry 5 1 0 false) true false 1 (Or.inr rfl)
  ⟨h.2.2.2.1 rfl, h.2.2.1⟩

/-! ## The pending_free flag -/

/-- C10 as stated fails: an entry whose pending_free flag is set and whose
reference count is not zero is yielded by process_mem_seq_start and by
process_mem_seq_next. -/
theorem process_mem_seq_find_yields_pending_free :
    (example_entry 1 1 0 true).pending_free = true ∧
    (process_mem_seq_start [example_entry 1 1 0 true] 1).1 =
      some (seq_ptr.entry (example_entry 1 2 0 true)) ∧
    (process_mem_seq_next [example_entry 1 1 0 true] seq_ptr.SEQ_START_TOKEN 0).1 =
      some (seq_ptr.entry (example_entry 1 2 0 true)) := by
  refine ⟨rfl, ?_, ?_⟩
  · simp only [process_mem_seq_start, process_mem_seq_find_fst, find_loop_one]
    decide
  · rw [process_mem_seq_next_fst]
    decide

/-- C10, amended. Pending-free entries and new enumeration: the per-entry view
yields nothing for an entry whose pending_free flag is set (mem_entry_seq_start
returns NULL or the error pointer and takes no reference); the per-process
cursor does not read the flag: process_mem_seq_next yields the first entry
after its cursor whenever its reference count is not zero, and NULL when it is
zero. -/
theorem pending_free_enumeration :
    (∀ (entry : kgsl_mem_entry) (task may_access : Bool) (pos : Nat),
      entry.pending_free = true →
        ((mem_entry_seq_start entry task may_access pos).1 = mem_entry_ptr.NULL ∨
         (mem_entry_seq_start entry task may_access pos).1 = mem_entry_ptr.ERR_PTR (-EACCES)) ∧
        (mem_entry_seq_start entry task may_access pos).2.2 = []) ∧
    (∀ (idr : List kgsl_mem_entry) (ptr : seq_ptr) (pos : Nat) (x : kgsl_mem_entry),
      idr_get_next idr (start_id ptr) = some x →
        (x.refcount ≠ 0 → (process_mem_seq_next idr ptr pos).1 =
          some (seq_ptr.entry { x with refcount := x.refcount + 1 })) ∧
        (x.refcount = 0 → (process_mem_seq_next idr ptr pos).1 = none)) := by
  refine ⟨fun entry task may_access pos hp => ?_, fun idr ptr pos x hx => ⟨fun hr => ?_, fun hr => ?_⟩⟩
  · rcases mem_entry_seq_start_cases entry task may_access pos with h | h | ⟨_, _, h, _⟩
    · rw [h.1]; exact ⟨Or.inl rfl, rfl⟩
    · rw [h.1]; exact ⟨Or.inr rfl, rfl⟩
    · rw [hp] at h; exact Bool.noConfusion h
  · rw [process_mem_seq_next_fst, hx, Option.some_bind, kgsl_mem_entry_get_of_ne hr]
    rfl
  · rw [process_mem_seq_next_fst, hx, Option.some_bind]
    simp [kgsl_mem_entry_get, hr]

theorem pending_free_enumeration_witness :
    ((mem_entry_seq_start (example_entry 5 1 0 true) true true 0).1 = mem_entry_ptr.NULL ∨
      (mem_entry_seq_start (example_entry 5 1 0 true) true true 0).1 =
        mem_entry_ptr.ERR_PTR (-EACCES)) ∧
    (process_mem_seq_next [example_entry 1 1 0 true] seq_ptr.SEQ_START_TOKEN 0).1 =
      some (seq_ptr.entry { example_entry 1 1 0 true with refcount := 1 + 1 }) :=
  ⟨(pending_free_enumeration.1 (example_entry 5 1 0 true) true true 0 rfl).1,
   (pending_free_enumeration.2 [example_entry 1 1 0 true] seq_ptr.SEQ_START_TOKEN 0
      (example_entry 1 1 0 true) (by decide)).1 (by decide)⟩

/-! ## The listings -/

/-- The cursor value that holds the one more reference on an entry. -/
theorem cursor_at_succ (idr : List kgsl_mem_entry) (hr : ∀ e ∈ idr, e.refcount ≠ 0) (j : Nat)
    (hj : j < idr.length) :
    cursor_at idr (j + 1) =
      some (seq_ptr.entry { idr[j] with refcount := idr[j].refcount + 1 }) := by
  unfold cursor_at
  simp only [Nat.add_eq_zero, one_ne_zero, and_false, if_false, Nat.add_sub_cancel]
  rw [List.getElem?_eq_getElem hj, Option.some_bind,
    kgsl_mem_entry_get_of_ne (hr _ (List.getElem_mem hj))]
  rfl

/-- The entries yielded by k next calls on a registry that does not change. -/
theorem process_mem_seq_nexts_yield (idr : List kgsl_mem_entry)
    (hs : idr.Pairwise (fun a b => a.id < b.id)) (hr : ∀ e ∈ idr, e.refcount ≠ 0) (k : Nat) :
    ∀ (j pos : Nat), j ≤ idr.length →
      (process_mem_seq_nexts (cursor_at idr j) pos (List.replicate k idr)).2.1 =
        ((idr.drop j).take k).map
          (fun x => seq_ptr.entry { x with refcount := x.refcount + 1 }) := by
  induction k with
  | zero => intro j pos _; simp [process_mem_seq_nexts]
  | succ k ih =>
    intro j pos hj
    rw [List.replicate_succ]
    cases hc : cursor_at idr j with
    | none =>
      have := (cursor_at_none idr hr j).mp hc
      omega
    | some p =>
      have hn := process_mem_seq_next_at idr j pos p hs hc
      simp only [process_mem_seq_nexts]
      rw [hn]
      by_cases hjl : j < idr.length
      · have hd : idr.drop j = idr[j] :: idr.drop (j + 1) := List.drop_eq_getElem_cons hjl
        rw [ih (j + 1) _ (by omega), cursor_at_succ idr hr j hjl, hd, List.take_succ_cons,
          List.map_cons]
        rfl
      · have hnone := (cursor_at_none idr hr (j + 1)).mpr (by omega)
        rw [hnone, process_mem_seq_nexts_none, List.drop_eq_nil_of_le (by omega)]
        simp

theorem print_mem_entry_eq (K : msm_kgsl_flags) (e : kgsl_mem_entry) :
    print_mem_entry K e =
      if e.memdesc.flags &&& K.KGSL_MEMFLAGS_SPARSE_VIRT = 0 then [mem_row_of K e] else [] := by
  unfold print_mem_entry mem_row_of
  by_cases h : e.memdesc.flags &&& K.KGSL_MEMFLAGS_SPARSE_VIRT = 0
  · simp [h]
  · simp [h]

theorem print_sparse_mem_entry_eq (K : msm_kgsl_flags) (e : kgsl_mem_entry) :
    print_sparse_mem_entry K e =
      if e.memdesc.flags &&& K.KGSL_MEMFLAGS_SPARSE_VIRT ≠ 0 then sparse_block_of e else [] := by
  unfold print_sparse_mem_entry sparse_block_of
  by_cases h : e.memdesc.flags &&& K.KGSL_MEMFLAGS_SPARSE_VIRT = 0
  · simp [h]
  · simp [h]

theorem flatten_map_filter {α β : Type} (p : α → Bool) (f : α → List β) (g : α → List β)
    (h : ∀ a, f a = if p a then g a else []) (l : List α) :
    (l.map f).flatten = ((l.filter p).map g).flatten := by
  induction l with
  | nil => rfl
  | cons a l ih =>
    by_cases hp : p a = true
    · simp [List.filter_cons, hp, h a, ih]
    · simp [List.filter_cons, hp, h a, ih]

theorem flatten_map_singleton {α β : Type} (g : α → β) (l : List α) :
    (l.map (fun a => [g a])).flatten = l.map g := by
  induction l with
  | nil => rfl
  | cons a l ih => simp [ih]

/-- C8. Listing filters by the sparse-virtual flag: on a registry that does not
change, in ascending id order and with every entry referenceable, a read of
the per-process listing that calls next until it returns NULL prints the
header row and then one row for each entry whose flags lack
KGSL_MEMFLAGS_SPARSE_VIRT, in ascending id order, and nothing for a
sparse-virtual entry; process_sparse_mem_print prints its header and then the
binding rows (and the closing empty line) of the entries that have the flag,
and nothing for the others. The listing is the same when each next call reads
the registry with the reference of the cursor on its entry. -/
theorem process_mem_listing_rows (K : msm_kgsl_flags) (idr : List kgsl_mem_entry) (k : Nat)
    (hs : idr.Pairwise (fun a b => a.id < b.id)) (hr : ∀ e ∈ idr, e.refcount ≠ 0)
    (hk : idr.length ≤ k) :
    process_mem_listing K idr 0 (List.replicate k idr) =
      seq_line.mem_header ::
        (idr.filter (fun e => decide (e.memdesc.flags &&& K.KGSL_MEMFLAGS_SPARSE_VIRT = 0))).map
          (mem_row_of K) ∧
    (idr.filter (fun e => decide (e.memdesc.flags &&& K.KGSL_MEMFLAGS_SPARSE_VIRT = 0))).Pairwise
      (fun a b => a.id < b.id) ∧
    (∀ e : kgsl_mem_entry, e.memdesc.flags &&& K.KGSL_MEMFLAGS_SPARSE_VIRT ≠ 0 →
      process_mem_seq_show K (seq_ptr.entry e) = []) ∧
    process_sparse_mem_print K idr =
      seq_line.sparse_header ::
        ((idr.filter (fun e => decide (e.memdesc.flags &&& K.KGSL_MEMFLAGS_SPARSE_VIRT ≠ 0))).map
          sparse_block_of).flatten ∧
    (∀ e : kgsl_mem_entry, e.memdesc.flags &&& K.KGSL_MEMFLAGS_SPARSE_VIRT = 0 →
      print_sparse_mem_entry K e = []) ∧
    process_mem_listing K idr 0 ((List.range k).map (held idr)) =
      process_mem_listing K idr 0 (List.replicate k idr) := by
  refine ⟨?_, List.Pairwise.filter _ hs, ?_, ?_, ?_, ?_⟩
  · have hy := process_mem_seq_nexts_yield idr hs hr k 0 0 (Nat.zero_le _)
    have hc0 : cursor_at idr 0 = some seq_ptr.SEQ_START_TOKEN := rfl
    rw [hc0, List.drop_zero, List.take_of_length_le hk] at hy
    unfold process_mem_listing process_mem_session
    have hst : process_mem_seq_start idr 0 = (some seq_ptr.SEQ_START_TOKEN, []) := rfl
    simp only [hst, hy, Option.toList, List.singleton_append, List.map_cons, List.flatten_cons,
      process_mem_seq_show, List.map_map]
    have hfl := flatten_map_filter
      (fun e => decide (e.memdesc.flags &&& K.KGSL_MEMFLAGS_SPARSE_VIRT = 0))
      (process_mem_seq_show K ∘ fun x => seq_ptr.entry { x with refcount := x.refcount + 1 })
      (fun e => [mem_row_of K e])
      (fun e => by
        simp only [Function.comp, process_mem_seq_show, print_mem_entry_eq, mem_row_of,
          decide_eq_true_eq])
      idr
    rw [hfl, flatten_map_singleton]
  · intro e he
    simp [process_mem_seq_show, print_mem_entry_eq, he]
  · unfold process_sparse_mem_print
    rw [flatten_map_filter
      (fun e => decide (e.memdesc.flags &&& K.KGSL_MEMFLAGS_SPARSE_VIRT ≠ 0))
      (print_sparse_mem_entry K) sparse_block_of
      (fun e => by simp only [print_sparse_mem_entry_eq, decide_eq_true_eq]) idr]
  · intro e he
    simp [print_sparse_mem_entry_eq, he]
  · have hheld := process_mem_seq_nexts_held idr hs k 0 0
    have hc0 : cursor_at idr 0 = some seq_ptr.SEQ_START_TOKEN := rfl
    have hst : process_mem_seq_start idr 0 = (some seq_ptr.SEQ_START_TOKEN, []) := rfl
    rw [hc0, ← List.range_eq_range'] at hheld
    unfold process_mem_listing process_mem_session
    simp only [hst, hheld]

theorem process_mem_listing_rows_witness :
    process_mem_listing example_flags example_registry 0 (List.replicate 2 example_registry) =
      [seq_line.mem_header, seq_line.mem_row 0x10000 4096 1 true false false 0 none] ∧
    process_sparse_mem_print example_flags example_registry =
      [seq_line.sparse_header, seq_line.sparse_row 3 0x20000 0 4096 0,
       seq_line.sparse_row 3 0x20000 4096 4096 8192, seq_line.newline] :=
  have h := process_mem_listing_rows example_flags example_registry 2
    (by decide) (by decide) (by decide)
  ⟨h.1.trans (by decide), h.2.2.2.1.trans (by decide)⟩

end Kgsl
